import Mathlib

/-!
Verification of the vue-property-decorator-extension specification.

Part I embeds the HTML custom-data generator `scripts/gen-vue-data.ts`
directly from its source.  Part II models, from the specification's own
words, the core virtual-document compiler and dependency engine (section
splitter, template compiler offset maps, position mapper, property
flattening, dependency graph, cache invalidation and the stale-result
scheduler), whose code is not among the repository files available here.
-/

/-! ## Part I: embedding of scripts/gen-vue-data.ts -/

/-- Embeds the TS interface `Attribute` (optional fields become `Option`). -/
structure Attribute where
  label : String
  type : Option String
  documentation : Option String
  referenceName : Option String
  referenceUrl : Option String
deriving DecidableEq, Repr

/-- Embeds the TS class `HTMLTagSpecification`. -/
structure HTMLTagSpecification where
  documentation : String
  referenceName : String
  referenceUrl : String
  attributes : List Attribute
deriving DecidableEq, Repr

/-- Embeds the TS function `genAttribute`; TS calls that omit trailing
arguments pass `none` explicitly here. -/
def genAttribute (label : String) (ty : Option String) (documentation : Option String)
    (referenceName : Option String) (referenceUrl : Option String) : Attribute :=
  { label := label, type := ty, documentation := documentation,
    referenceName := referenceName, referenceUrl := referenceUrl }

/-- Embeds the TS function `getAttribute`: a `genAttribute` call that always
sets the reference name to "API Reference" and the URL to the Vue API anchor
of the attribute's own label. -/
def getAttribute (label : String) (ty : Option String) (documentation : String) : Attribute :=
  genAttribute label ty (some documentation) (some "API Reference")
    (some ("https://vuejs.org/v2/api/#" ++ label))

/-- Embeds the TS constant `vueDirectives` (17 entries, all via `getAttribute`). -/
def vueDirectives : List Attribute :=
  [ getAttribute "v-text" none "Updates the element’s `textContent`.",
    getAttribute "v-html" none "Updates the element’s `innerHTML`. XSS prone.",
    getAttribute "v-show" none
      "Toggle’s the element’s `display` CSS property based on the truthy-ness of the expression value.",
    getAttribute "v-if" none
      "Conditionally renders the element based on the truthy-ness of the expression value.",
    getAttribute "v-else" (some "v") "Denotes the “else block” for `v-if` or a `v-if`/`v-else-if` chain.",
    getAttribute "v-else-if" none "Denotes the “else if block” for `v-if`. Can be chained.",
    getAttribute "v-for" none "Renders the element or template block multiple times based on the source data.",
    getAttribute "v-on" none "Attaches an event listener to the element.",
    getAttribute "v-bind" none "Dynamically binds one or more attributes, or a component prop to an expression.",
    getAttribute "v-model" none "Creates a two-way binding on a form input element or a component.",
    getAttribute "v-pre" (some "v") "Skips compilation for this element and all its children.",
    getAttribute "v-cloak" (some "v") "Indicates Vue instance for this element has NOT finished compilation.",
    getAttribute "v-once" (some "v") "Render the element and component once only.",
    getAttribute "key" none "Hint at VNodes identity for VDom diffing, e.g. list rendering",
    getAttribute "ref" none "Register a reference to an element or a child component.",
    getAttribute "slot" none
      "Used on content inserted into child components to indicate which named slot the content belongs to.",
    getAttribute "slot-scope" none
      "the name of a temporary variable that holds the props object passed from the child" ]

/-- Embeds the TS constant `transitionProps`. -/
def transitionProps : List Attribute :=
  [ getAttribute "name" none "Used to automatically generate transition CSS class names. Default: \"v\"",
    getAttribute "appear" (some "b") "Whether to apply transition on initial render. Default: false",
    getAttribute "css" (some "b")
      "Whether to apply CSS transition classes. Defaults: true. If set to false, will only trigger JavaScript hooks registered via component events.",
    getAttribute "type" (some "transType")
      "The event, \"transition\" or \"animation\", to determine end timing. Default: the type that has a longer duration.",
    getAttribute "mode" (some "transMode")
      "Controls the timing sequence of leaving/entering transitions. Available modes are \"out-in\" and \"in-out\"; Defaults to simultaneous." ]
  ++ ([ "enter-class", "leave-class", "appear-class", "enter-to-class", "leave-to-class",
        "appear-to-class", "enter-active-class", "leave-active-class", "appear-active-class"
      ].map fun t => genAttribute t none none none none)

/-- Embeds the TS function `genTag`. -/
def genTag (tag : String) (doc : String) (attributes : List Attribute) : HTMLTagSpecification :=
  { documentation := doc, referenceName := "API Reference",
    referenceUrl := "https://vuejs.org/v2/api/#" ++ tag, attributes := attributes }

/-- Embeds the TS object `vueTags` as an ordered association list (TS `for-in`
iterates object keys in insertion order). -/
def vueTags : List (String × HTMLTagSpecification) :=
  [ ("component", genTag "component"
      "A meta component for rendering dynamic components. The actual component to render is determined by the `is` prop."
      [ genAttribute "is" none (some "the actual component to render") none none,
        genAttribute "inline-template" (some "v")
          (some "treat inner content as its template rather than distributed content") none none ]),
    ("transition", genTag "transition"
      "<transition> serves as transition effects for single element/component. It applies the transition behavior to the wrapped content inside."
      transitionProps),
    ("transition-group", genTag "transition-group"
      "transition group serves as transition effects for multiple elements/components. It renders a <span> by default and can render user specified element via `tag` attribute."
      (transitionProps ++ [genAttribute "tag" none none none none,
                           genAttribute "move-class" none none none none])),
    ("keep-alive", genTag "keep-alive"
      "When wrapped around a dynamic component, <keep-alive> caches the inactive component instances without destroying them."
      ([ "include", "exclude" ].map fun t => genAttribute t none none none none)),
    ("slot", genTag "slot"
      "<slot> serve as content distribution outlets in component templates. <slot> itself will be replaced."
      [ genAttribute "name" none (some "Used for named slot") none none ]),
    ("template", HTMLTagSpecification.mk
      "The template element is used to declare fragments of HTML that can be cloned and inserted in the document by script."
      "" ""
      [ genAttribute "scope" none
          (some "(deprecated) a temporary variable that holds the props object passed from the child") none none,
        genAttribute "slot" none (some "the name of scoped slot") none none ]),
    ("router-link", HTMLTagSpecification.mk
      "Link to navigate user. The target location is specified with the to prop."
      "API Reference"
      "https://router.vuejs.org/api/#router-link"
      [ genAttribute "to" none
          (some "The target route of the link. It can be either a string or a location descriptor object.")
          (some "API Reference") (some "https://router.vuejs.org/api/#to"),
        genAttribute "replace" none
            (some "Setting replace prop will call `router.replace()` instead of `router.push()` when clicked, so the navigation will not leave a history record.")
            (some "API Reference") (some "https://router.vuejs.org/api/#replace"),
        genAttribute "append" (some "v")
          (some "Setting append prop always appends the relative path to the current path. For example, assuming we are navigating from /a to a relative link b, without append we will end up at /b, but with append we will end up at /a/b.")
          (some "API Reference") (some "https://router.vuejs.org/api/#append"),
        genAttribute "tag" none
          (some "Specify which tag to render to, and it will still listen to click events for navigation.")
          (some "API Reference") (some "https://router.vuejs.org/api/#tag"),
        genAttribute "active-class" none
          (some "Configure the active CSS class applied when the link is active.")
          (some "API Reference") (some "https://router.vuejs.org/api/#active-class"),
        genAttribute "exact" (some "v")
          (some "Force the link into \"exact match mode\".")
          (some "API Reference") (some "https://router.vuejs.org/api/#exact"),
        genAttribute "event" none
          (some "Specify the event(s) that can trigger the link navigation.")
          (some "API Reference") (some "https://router.vuejs.org/api/#event"),
        genAttribute "exact-active-class" none
          (some "Configure the active CSS class applied when the link is active with exact match.")
          (some "API Reference") (some "https://router.vuejs.org/api/#exact-active-class"),
        genAttribute "aria-current-value" (some "ariaCurrentType")
          (some "Configure the value of `aria-current` when the link is active with exact match. It must be one of the [allowed values for `aria-current`](https://www.w3.org/TR/wai-aria-1.2/#aria-current) in the ARIA spec. In most cases, the default of `page` should be the best fit.")
          (some "API Reference") (some "https://router.vuejs.org/api/#aria-current-value") ]),
    ("router-view", HTMLTagSpecification.mk
      "A functional component that renders the matched component for the given path. Components rendered in <router-view> can also contain its own <router-view>, which will render components for nested paths."
      "API Reference"
      "https://router.vuejs.org/api/#router-link"
      [ genAttribute "name" none
          (some "When a `<router-view>` has a name, it will render the component with the corresponding name in the matched route record's components option.")
          (some "API Reference") (some "https://router.vuejs.org/api/#to") ]) ]

/-- Embeds the TS interface `IReference`. -/
structure IReference where
  name : String
  url : String
deriving DecidableEq, Repr

/-- Embeds the TS interface `IAttributeData` (fields the generator never sets
stay `none`). -/
structure IAttributeData where
  name : String
  description : Option String
  references : Option (List IReference)
deriving DecidableEq, Repr

/-- Embeds the TS interface `ITagData` (fields the generator never sets stay
`none`). -/
structure ITagData where
  name : String
  attributes : List IAttributeData
  references : Option (List IReference)
deriving DecidableEq, Repr

/-- Embeds the TS interface `HTMLDataV1`; the generator never sets `valueSets`. -/
structure HTMLDataV1 where
  version : Nat
  tags : List ITagData
  globalAttributes : List IAttributeData
deriving DecidableEq, Repr

/-- JS truthiness of an optional string (`undefined` and `""` are falsy),
as tested by `attr.referenceName ? ... : undefined`. -/
def truthyStr : Option String → Bool
  | none => false
  | some s => s != ""

/-- The body of the TS loop over `vueDirectives` (and of the inner `map` of
the tag loop): one `Attribute` to one `IAttributeData`. -/
def attrToData (attr : Attribute) : IAttributeData :=
  { name := attr.label,
    description := attr.documentation,
    references :=
      if truthyStr attr.referenceName then
        some [{ name := attr.referenceName.getD "", url := attr.referenceUrl.getD "" }]
      else none }

/-- The body of the TS loop over `vueTags`: one named tag to one `ITagData`. -/
def tagToData (name : String) (value : HTMLTagSpecification) : ITagData :=
  { name := name,
    attributes := value.attributes.map attrToData,
    references :=
      if truthyStr (some value.referenceName) then
        some [{ name := value.referenceName, url := value.referenceUrl }]
      else none }

/-- Embeds the TS constant `data`: the `HTMLDataV1` value the script prints
after both loops have run. -/
def vueData : HTMLDataV1 :=
  { version := 1,
    tags := vueTags.map fun p => tagToData p.1 p.2,
    globalAttributes := vueDirectives.map attrToData }

/-! ## Part II: model of the core virtual-document compiler and dependency
engine, from the specification (its code is not among the repository files
available here). -/

/-- One entry of an offset map: a `(compiledOffset, compiledLength,
originalOffset)` triple, with the original span's length carried explicitly so
that length preservation is a provable property rather than a notational
accident. -/
structure MapSpan where
  compiledOffset : Nat
  compiledLength : Nat
  originalOffset : Nat
  originalLength : Nat
deriving DecidableEq, Repr

/-- Modelled from the spec: the Template Compiler's input stream. A region of
the template is either copied verbatim into the compiled function body
(a mapped region) or is directive syntax with no direct equivalent, replaced
by synthetic text whose length may differ (an unmapped region). -/
inductive TemplateSegment
  | copied (text : String)
  | transformed (original compiled : String)
deriving DecidableEq, Repr

/-- Modelled from the spec: the Template Compiler walk (§4.3). It emits the
compiled body left to right, keeping one mapped span per nonempty copied
region and excluding transformed regions from the map; `co` and `oo` are the
compiled and original offsets already consumed. -/
def compileSegments : List TemplateSegment → Nat → Nat → String × List MapSpan
  | [], _, _ => ("", [])
  | TemplateSegment.copied s :: rest, co, oo =>
    if s.length = 0 then compileSegments rest co oo
    else (s ++ (compileSegments rest (co + s.length) (oo + s.length)).1,
          ⟨co, s.length, oo, s.length⟩ :: (compileSegments rest (co + s.length) (oo + s.length)).2)
  | TemplateSegment.transformed orig synth :: rest, co, oo =>
    (synth ++ (compileSegments rest (co + synth.length) (oo + orig.length)).1,
     (compileSegments rest (co + synth.length) (oo + orig.length)).2)

/-- Modelled from the spec: the Template Compiler (§4.3) applied to a whole
template, starting at offset 0 in both coordinate spaces. -/
def compileTemplate (segs : List TemplateSegment) : String × List MapSpan :=
  compileSegments segs 0 0

/-- Modelled from the spec: the Position Mapper's `toSynthetic` (§4.7) — the
first span whose original range holds `p` translates it; otherwise the
position is unmapped (`none`). -/
def toSynthetic (spans : List MapSpan) (p : Nat) : Option Nat :=
  spans.findSome? fun sp =>
    if sp.originalOffset ≤ p ∧ p < sp.originalOffset + sp.originalLength then
      some (sp.compiledOffset + (p - sp.originalOffset))
    else none

/-- Modelled from the spec: the Position Mapper's `toOriginal` (§4.7). -/
def toOriginal (spans : List MapSpan) (p : Nat) : Option Nat :=
  spans.findSome? fun sp =>
    if sp.compiledOffset ≤ p ∧ p < sp.compiledOffset + sp.compiledLength then
      some (sp.originalOffset + (p - sp.compiledOffset))
    else none

/-- The §3 offset-map invariant: every span preserves length and is nonempty,
and the spans are disjoint and ordered in both coordinate spaces. -/
def SpanListWF (spans : List MapSpan) : Prop :=
  (∀ sp ∈ spans, sp.compiledLength = sp.originalLength ∧ 0 < sp.originalLength) ∧
  spans.Pairwise fun a b =>
    a.compiledOffset + a.compiledLength ≤ b.compiledOffset ∧
    a.originalOffset + a.originalLength ≤ b.originalOffset

/-- `p` (an original-document position) lies inside a mapped span. -/
def InMappedOriginal (spans : List MapSpan) (p : Nat) : Prop :=
  ∃ sp ∈ spans, sp.originalOffset ≤ p ∧ p < sp.originalOffset + sp.originalLength

/-- `p` (a synthetic-document position) lies inside a mapped span. -/
def InMappedCompiled (spans : List MapSpan) (p : Nat) : Prop :=
  ∃ sp ∈ spans, sp.compiledOffset ≤ p ∧ p < sp.compiledOffset + sp.compiledLength

/-- A concrete well-formed offset map used to instantiate mapper theorems. -/
def demoSpans : List MapSpan :=
  [⟨0, 2, 5, 2⟩, ⟨4, 3, 10, 3⟩]

/-- The three section kinds of a component file. -/
inductive SectionKind
  | template
  | script
  | style
deriving DecidableEq, Repr

/-- The opening tag whose occurrence starts a section of the given kind. -/
def sectionOpenTag : SectionKind → List Char
  | SectionKind.template => "<template>".toList
  | SectionKind.script => "<script>".toList
  | SectionKind.style => "<style>".toList

/-- The closing tag that ends a section of the given kind. -/
def sectionCloseTag : SectionKind → List Char
  | SectionKind.template => "</template>".toList
  | SectionKind.script => "</script>".toList
  | SectionKind.style => "</style>".toList

/-- Which section kind, if any, opens at the head of `l`, with the length of
its opening tag. -/
def matchOpen (l : List Char) : Option (SectionKind × Nat) :=
  if (sectionOpenTag SectionKind.template).isPrefixOf l then
    some (SectionKind.template, (sectionOpenTag SectionKind.template).length)
  else if (sectionOpenTag SectionKind.script).isPrefixOf l then
    some (SectionKind.script, (sectionOpenTag SectionKind.script).length)
  else if (sectionOpenTag SectionKind.style).isPrefixOf l then
    some (SectionKind.style, (sectionOpenTag SectionKind.style).length)
  else none

/-- The number of characters of `l` up to and including the first occurrence
of `close`, or `none` when `close` does not occur in `l`. -/
def findCloseLen (close : List Char) : List Char → Option Nat
  | [] => none
  | c :: rest =>
    if close.isPrefixOf (c :: rest) then some close.length
    else match findCloseLen close rest with
      | some n => some (n + 1)
      | none => none

/-- Modelled from the spec: the Section Splitter scan (§4.1). It walks the
document, emits one `(kind, start, length)` range per section found (running
through the matching close tag, or best-effort to the end of the document
when the close tag is missing), and leaves all other bytes untouched. -/
def splitAux : List Char → Nat → List (SectionKind × Nat × Nat)
  | [], _ => []
  | c :: rest, pos =>
    match matchOpen (c :: rest) with
    | some (k, openLen) =>
      match findCloseLen (sectionCloseTag k) ((c :: rest).drop openLen) with
      | some m =>
        (k, pos, openLen + m) :: splitAux (rest.drop (openLen + m - 1)) (pos + (openLen + m))
      | none => [(k, pos, rest.length + 1)]
    | none => splitAux rest (pos + 1)
termination_by l _ => l.length
decreasing_by
  · simp only [List.length_cons, List.length_drop]
    omega
  · simp only [List.length_cons]
    omega

/-- Modelled from the spec: the Section Splitter (§4.1) over a whole document. -/
def splitSections (doc : List Char) : List (SectionKind × Nat × Nat) :=
  splitAux doc 0

/-- Ranges start at or after `pos` and follow one another without overlap. -/
def SecChain : Nat → List (SectionKind × Nat × Nat) → Prop
  | _, [] => True
  | pos, (_, s, n) :: rest => pos ≤ s ∧ SecChain (s + n) rest

/-- Concatenates the untouched bytes between the given ranges with the bytes
of the ranges themselves, starting from position `pos` of `doc`. -/
def reconstruct (doc : List Char) : List (SectionKind × Nat × Nat) → Nat → List Char
  | [], pos => doc.drop pos
  | (_, s, n) :: rest, pos =>
    (doc.drop pos).take (s - pos) ++ (doc.drop s).take n ++ reconstruct doc rest (s + n)

/-- One locally declared property: name and declared type text (§4.2). -/
structure PropDecl where
  name : String
  typeText : String
deriving DecidableEq, Repr

/-- Modelled from the spec: the inheritance flattening pass (§3, §9) — the
union of a node's own declarations with its parent's already-flattened
properties, a duplicate name keeping the child's declaration. -/
def flattenProps (own inherited : List PropDecl) : List PropDecl :=
  own ++ inherited.filter fun p => own.all fun o => o.name != p.name

/-- The declaration a consumer sees under a given property name. -/
def lookupProp (props : List PropDecl) (n : String) : Option PropDecl :=
  props.find? fun p => p.name == n

/-- The recoverable diagnostics the composer can report (§7). -/
inductive ComposeDiagnostic
  | unresolvedParent
deriving DecidableEq, Repr

/-- What a composition run exposes: the flattened properties, the
diagnostics reported, and whether a fatal error was raised. -/
structure ComposeOutcome where
  properties : List PropDecl
  diagnostics : List ComposeDiagnostic
  fatal : Bool
deriving DecidableEq, Repr

/-- Modelled from the spec: the property part of the Virtual Document
Composer (§4.5, §4.4). A root composes its own declarations; a resolvable
parent contributes its flattened properties; a parent that fails to resolve
degrades the node to root behavior with a recoverable diagnostic. -/
def composeProperties (own : List PropDecl) (parentRef : Option String)
    (resolve : String → Option (List PropDecl)) : ComposeOutcome :=
  match parentRef with
  | none => ⟨own, [], false⟩
  | some r =>
    match resolve r with
    | some parentFlat => ⟨flattenProps own parentFlat, [], false⟩
    | none => ⟨own, [ComposeDiagnostic.unresolvedParent], false⟩

/-- The dependency forest's parent edges: `(child, parent)` pairs, at most
one per child (§3). -/
abbrev ParentEdges := List (String × String)

/-- The parent recorded for `x`, if any. -/
def lookupParent (g : ParentEdges) (x : String) : Option String :=
  (g.find? fun e => e.1 == x).map Prod.snd

/-- The chain of successive parents of `x`, cut off after `fuel` steps. -/
def ancestorChain (g : ParentEdges) : Nat → String → List String
  | 0, _ => []
  | fuel + 1, x =>
    match lookupParent g x with
    | none => []
    | some p => p :: ancestorChain g fuel p

/-- `IsParentPath g b path`: `path` lists successive parents starting from
`b`, each step following the recorded parent edge. -/
inductive IsParentPath (g : ParentEdges) : String → List String → Prop
  | single {b a : String} : lookupParent g b = some a → IsParentPath g b [a]
  | cons {b p : String} {path : List String} :
      lookupParent g b = some p → IsParentPath g p path → IsParentPath g b (p :: path)

/-- `a` is a (strict or transitive) ancestor of `b`; equivalently, `b` is a
descendant of `a`. -/
def Ancestor (g : ParentEdges) (a b : String) : Prop :=
  ∃ path, IsParentPath g b path ∧ path.getLast? = some a

/-- The error taxonomy entry raised on a rejected parent edge (§7). -/
inductive GraphError
  | cycleError
deriving DecidableEq, Repr

/-- Whether making `parentRef` the parent of `node` would create a cycle:
`node` itself, or `node` among the ancestors of `parentRef`. -/
def wouldCreateCycle (g : ParentEdges) (node parentRef : String) : Bool :=
  node == parentRef || (ancestorChain g g.length parentRef).contains node

/-- Modelled from the spec: `setParent` (§4.4) — rejects the edge with a
`CycleError`, leaving the graph unchanged, when `parentRef` is a descendant
of `node`; otherwise replaces `node`'s parent edge. -/
def setParent (g : ParentEdges) (node parentRef : String) :
    ParentEdges × Option GraphError :=
  if wouldCreateCycle g node parentRef then (g, some GraphError.cycleError)
  else ((g.filter fun e => e.1 != node) ++ [(node, parentRef)], none)

/-- A cached synthetic document: its text, the `(path, version)` pairs
recorded for the node and its ancestors at composition time, and the
eager staleness mark (§3, §4.4). -/
structure ComposedDoc where
  text : String
  recorded : List (String × Nat)
  stale : Bool
deriving DecidableEq, Repr

/-- One FileNode of the dependency forest (§3), restricted to the fields the
invalidation claims are about. -/
structure FileNode where
  version : Nat
  parent : Option String
  composed : Option ComposedDoc
deriving DecidableEq, Repr

/-- The node store: an association list keyed by file path. -/
abbrev NodeStore := List (String × FileNode)

/-- The parent edges the store's nodes induce. -/
def storeEdges (s : NodeStore) : ParentEdges :=
  s.filterMap fun e => e.2.parent.map fun p => (e.1, p)

/-- The node recorded under path `x`, if any. -/
def lookupNode (s : NodeStore) (x : String) : Option FileNode :=
  (s.find? fun e => e.1 == x).map Prod.snd

/-- Marks a cached composed document stale without touching its content. -/
def markStale : Option ComposedDoc → Option ComposedDoc
  | none => none
  | some c => some { c with stale := true }

/-- Whether `d` is a descendant of `target` in the store's forest, read off
the bounded ancestor walk. -/
def isDescendant (s : NodeStore) (d target : String) : Bool :=
  (ancestorChain (storeEdges s) (storeEdges s).length d).contains target

/-- Modelled from the spec: `invalidate` (§4.4) — bumps the target's
`version` and marks the composed cache of the target and of every descendant
stale, recomputing none of them. -/
def invalidate (s : NodeStore) (target : String) : NodeStore :=
  s.map fun e =>
    if e.1 == target then
      (e.1, { e.2 with version := e.2.version + 1, composed := markStale e.2.composed })
    else if isDescendant s e.1 target then
      (e.1, { e.2 with composed := markStale e.2.composed })
    else e

/-- Whether every `(path, version)` pair recorded at composition time still
matches the store. -/
def recordedMatches (s : NodeStore) (recorded : List (String × Nat)) : Bool :=
  recorded.all fun rv =>
    match lookupNode s rv.1 with
    | some m => m.version == rv.2
    | none => false

/-- The §3 validity invariant of a composed cache: present, not marked
stale, and every recorded ancestor version still current. -/
def composedValid (s : NodeStore) (x : String) : Bool :=
  match lookupNode s x with
  | none => false
  | some n =>
    match n.composed with
    | none => false
    | some c => !c.stale && recordedMatches s c.recorded

/-- The per-node scheduler state of §5: the current version, whether a fresh
composition is scheduled, and the results delivered to consumers, newest
first, each tagged with the version it was computed for. -/
structure SchedState where
  version : Nat
  pendingFresh : Bool
  delivered : List (Nat × String)
deriving DecidableEq, Repr

/-- The events §5 serializes for one node: another invalidation, or the
arrival of a composition result computed for version `v`. -/
inductive SchedEvent
  | invalidateEvt
  | arriveEvt (v : Nat) (r : String)
deriving DecidableEq, Repr

/-- Modelled from the spec: the cancellation rule of §5 — an invalidation
bumps the version and schedules a fresh composition; an arriving result is
delivered only when its version is still current, and is otherwise discarded
with a fresh composition scheduled. -/
def schedStep (st : SchedState) : SchedEvent → SchedState
  | SchedEvent.invalidateEvt => { st with version := st.version + 1, pendingFresh := true }
  | SchedEvent.arriveEvt v r =>
    if v == st.version then
      { st with delivered := (v, r) :: st.delivered, pendingFresh := false }
    else { st with pendingFresh := true }

/-- A whole serialized event history applied to a starting state. -/
def schedRun (st : SchedState) (es : List SchedEvent) : SchedState :=
  es.foldl schedStep st

/-- The parent node of the concrete store below. -/
def demoNodeA : FileNode :=
  { version := 1, parent := none,
    composed := some { text := "tA", recorded := [("A", 1)], stale := false } }

/-- The composed cache of the child node of the concrete store below. -/
def demoDocB : ComposedDoc :=
  { text := "tB", recorded := [("B", 1), ("A", 1)], stale := false }

/-- The child node of the concrete store below, extending "A". -/
def demoNodeB : FileNode :=
  { version := 1, parent := some "A", composed := some demoDocB }

/-- A concrete two-node store (child "B" extending parent "A", both with
valid caches) used to instantiate the invalidation theorem. -/
def demoStore : NodeStore :=
  [("A", demoNodeA), ("B", demoNodeB)]

/-! ## Theorems -/

theorem find?_filter_of_imp {α : Type} (l : List α) (p q : α → Bool)
    (h : ∀ x, q x = true → p x = true) :
    List.find? q (l.filter p) = List.find? q l := by
  induction l with
  | nil => rfl
  | cons a t ih =>
    by_cases hq : q a = true
    · have hp := h a hq
      simp [List.filter_cons, hp, List.find?_cons, hq]
    · rw [Bool.not_eq_true] at hq
      by_cases hp : p a = true
      · simp [List.filter_cons, hp, List.find?_cons, hq, ih]
      · rw [Bool.not_eq_true] at hp
        simp [List.filter_cons, hp, List.find?_cons, hq, ih]

/-- C4: the flattened property set a consumer sees is the union of the
node's own declarations with the parent's already-flattened properties, a
duplicate name resolving to the child's declaration (so a redeclared
property exposes the child's type, not the ancestor's). -/
theorem flattenProps_union_shadowing (own inherited : List PropDecl) (n : String) :
    lookupProp (flattenProps own inherited) n =
      (lookupProp own n).or (lookupProp inherited n) := by
  unfold lookupProp flattenProps
  rw [List.find?_append]
  cases hfind : List.find? (fun p => p.name == n) own with
  | some v => rfl
  | none =>
    have hnone : ∀ o ∈ own, (o.name == n) = false := by
      intro o ho
      have := List.find?_eq_none.mp hfind o ho
      simpa using this
    have : List.find? (fun p => p.name == n)
        (inherited.filter fun p => own.all fun o => o.name != p.name) =
        List.find? (fun p => p.name == n) inherited := by
      apply find?_filter_of_imp
      intro x hx
      rw [List.all_eq_true]
      intro o ho
      have hxn : x.name = n := by simpa using hx
      have := hnone o ho
      simp only [bne_iff_ne, ne_eq, hxn]
      simpa using this
    rw [this]

/-- C7: a node whose parent reference cannot be resolved composes as a root:
exactly its local properties, one recoverable diagnostic, no fatal error. -/
theorem unresolvedParent_degrades_to_root (own : List PropDecl) (r : String)
    (resolve : String → Option (List PropDecl)) (h : resolve r = none) :
    composeProperties own (some r) resolve =
      ⟨own, [ComposeDiagnostic.unresolvedParent], false⟩ ∧
    (composeProperties own (some r) resolve).properties =
      (composeProperties own none resolve).properties := by
  simp [composeProperties, h]

theorem unresolvedParent_degrades_to_root_witness :
    ((fun _ => (none : Option (List PropDecl))) "Base" = none) ∧
    (composeProperties [⟨"x", "string"⟩] (some "Base") (fun _ => none) =
        ⟨[⟨"x", "string"⟩], [ComposeDiagnostic.unresolvedParent], false⟩ ∧
      (composeProperties [⟨"x", "string"⟩] (some "Base") (fun _ => none)).properties =
        (composeProperties [⟨"x", "string"⟩] none (fun _ => none)).properties) :=
  ⟨rfl, unresolvedParent_degrades_to_root [⟨"x", "string"⟩] "Base" (fun _ => none) rfl⟩

/-- C9: every generated global attribute carries a references list holding
exactly the "API Reference" link to the Vue API anchor of its own name. -/
theorem vueData_globalAttribute_references :
    ∀ a ∈ vueData.globalAttributes,
      a.references = some [⟨"API Reference", "https://vuejs.org/v2/api/#" ++ a.name⟩] := by
  decide

theorem vueData_globalAttribute_references_witness :
    (⟨"v-text", some "Updates the element’s `textContent`.",
        some [⟨"API Reference", "https://vuejs.org/v2/api/#v-text"⟩]⟩ : IAttributeData) ∈
      vueData.globalAttributes ∧
    (⟨"v-text", some "Updates the element’s `textContent`.",
        some [⟨"API Reference", "https://vuejs.org/v2/api/#v-text"⟩]⟩ : IAttributeData).references =
      some [⟨"API Reference", "https://vuejs.org/v2/api/#" ++ "v-text"⟩] :=
  ⟨by decide, vueData_globalAttribute_references _ (by decide)⟩

/-- C10: the emitted HTML data has version 1, exactly the eight documented
tags in order, and one global attribute per element of `vueDirectives`,
17 in all. -/
theorem vueData_shape :
    vueData.version = 1 ∧
    vueData.tags.map ITagData.name =
      ["component", "transition", "transition-group", "keep-alive", "slot",
       "template", "router-link", "router-view"] ∧
    vueData.tags.length = 8 ∧
    vueData.globalAttributes.length = 17 ∧
    vueData.globalAttributes.length = vueDirectives.length := by
  refine ⟨rfl, by decide, by decide, by decide, by decide⟩

theorem compileSegments_spans (segs : List TemplateSegment) (co oo : Nat) :
    (∀ sp ∈ (compileSegments segs co oo).2,
        sp.compiledLength = sp.originalLength ∧ 0 < sp.originalLength ∧
        co ≤ sp.compiledOffset ∧ oo ≤ sp.originalOffset) ∧
    (compileSegments segs co oo).2.Pairwise (fun a b =>
        a.compiledOffset + a.compiledLength ≤ b.compiledOffset ∧
        a.originalOffset + a.originalLength ≤ b.originalOffset) := by
  induction segs generalizing co oo with
  | nil => simp [compileSegments]
  | cons seg rest ih =>
    cases seg with
    | copied s =>
      by_cases hs : s.length = 0
      · simpa only [compileSegments, if_pos hs] using ih co oo
      · have h := ih (co + s.length) (oo + s.length)
        simp only [compileSegments, if_neg hs]
        constructor
        · intro sp hsp
          rcases List.mem_cons.mp hsp with rfl | hm
          · exact ⟨rfl, Nat.pos_of_ne_zero hs, Nat.le_refl _, Nat.le_refl _⟩
          · have := h.1 sp hm
            exact ⟨this.1, this.2.1, by omega, by omega⟩
        · rw [List.pairwise_cons]
          refine ⟨?_, h.2⟩
          intro b hb
          have := h.1 b hb
          dsimp only
          exact ⟨by omega, by omega⟩
    | transformed orig synth =>
      have h := ih (co + synth.length) (oo + orig.length)
      simp only [compileSegments]
      exact ⟨fun sp hsp => by
        have := h.1 sp hsp
        exact ⟨this.1, this.2.1, by omega, by omega⟩, h.2⟩

/-- C1: every mapped span the Template Compiler produces preserves length
(`compiledLength = originalLength`), and the span list is strictly ascending
in both the compiled and the original coordinate space. -/
theorem offsetMap_length_preserving_ascending (segs : List TemplateSegment) :
    (∀ sp ∈ (compileTemplate segs).2, sp.compiledLength = sp.originalLength) ∧
    (compileTemplate segs).2.Pairwise (fun a b =>
      a.compiledOffset < b.compiledOffset ∧ a.originalOffset < b.originalOffset) := by
  have h := compileSegments_spans segs 0 0
  refine ⟨fun sp hsp => (h.1 sp hsp).1, ?_⟩
  refine h.2.imp_of_mem ?_
  intro a b ha hb hr
  have hal := h.1 a ha
  exact ⟨by omega, by omega⟩

theorem toSynthetic_cons (sp : MapSpan) (rest : List MapSpan) (p : Nat) :
    toSynthetic (sp :: rest) p =
      if sp.originalOffset ≤ p ∧ p < sp.originalOffset + sp.originalLength then
        some (sp.compiledOffset + (p - sp.originalOffset))
      else toSynthetic rest p := by
  by_cases h : sp.originalOffset ≤ p ∧ p < sp.originalOffset + sp.originalLength
  · simp [toSynthetic, List.findSome?_cons, h]
  · simp [toSynthetic, List.findSome?_cons, h]

theorem toOriginal_cons (sp : MapSpan) (rest : List MapSpan) (p : Nat) :
    toOriginal (sp :: rest) p =
      if sp.compiledOffset ≤ p ∧ p < sp.compiledOffset + sp.compiledLength then
        some (sp.originalOffset + (p - sp.compiledOffset))
      else toOriginal rest p := by
  by_cases h : sp.compiledOffset ≤ p ∧ p < sp.compiledOffset + sp.compiledLength
  · simp [toOriginal, List.findSome?_cons, h]
  · simp [toOriginal, List.findSome?_cons, h]

theorem toSynthetic_eq_none_iff (spans : List MapSpan) (p : Nat) :
    toSynthetic spans p = none ↔ ¬ InMappedOriginal spans p := by
  induction spans with
  | nil => simp [toSynthetic, InMappedOriginal]
  | cons sp rest ih =>
    by_cases h : sp.originalOffset ≤ p ∧ p < sp.originalOffset + sp.originalLength
    · rw [toSynthetic_cons, if_pos h]
      simp only [InMappedOriginal]
      constructor
      · intro hc; exact absurd hc (by simp)
      · intro hc; exact absurd ⟨sp, List.mem_cons_self sp rest, h⟩ hc
    · rw [toSynthetic_cons, if_neg h, ih]
      unfold InMappedOriginal
      constructor
      · rintro hnr ⟨q, hq, hqr⟩
        rcases List.mem_cons.mp hq with rfl | hm
        · exact h hqr
        · exact hnr ⟨q, hm, hqr⟩
      · intro hnc ⟨q, hq, hqr⟩
        exact hnc ⟨q, List.mem_cons_of_mem _ hq, hqr⟩

theorem toOriginal_eq_none_iff (spans : List MapSpan) (p : Nat) :
    toOriginal spans p = none ↔ ¬ InMappedCompiled spans p := by
  induction spans with
  | nil => simp [toOriginal, InMappedCompiled]
  | cons sp rest ih =>
    by_cases h : sp.compiledOffset ≤ p ∧ p < sp.compiledOffset + sp.compiledLength
    · rw [toOriginal_cons, if_pos h]
      simp only [InMappedCompiled]
      constructor
      · intro hc; exact absurd hc (by simp)
      · intro hc; exact absurd ⟨sp, List.mem_cons_self sp rest, h⟩ hc
    · rw [toOriginal_cons, if_neg h, ih]
      unfold InMappedCompiled
      constructor
      · rintro hnr ⟨q, hq, hqr⟩
        rcases List.mem_cons.mp hq with rfl | hm
        · exact h hqr
        · exact hnr ⟨q, hm, hqr⟩
      · intro hnc ⟨q, hq, hqr⟩
        exact hnc ⟨q, List.mem_cons_of_mem _ hq, hqr⟩

theorem toSynthetic_some_lower (spans : List MapSpan) (p q : Nat)
    (h : toSynthetic spans p = some q) :
    ∃ sp ∈ spans, sp.compiledOffset ≤ q := by
  induction spans with
  | nil => simp [toSynthetic] at h
  | cons sp rest ih =>
    by_cases hc : sp.originalOffset ≤ p ∧ p < sp.originalOffset + sp.originalLength
    · rw [toSynthetic_cons, if_pos hc, Option.some.injEq] at h
      exact ⟨sp, List.mem_cons_self sp rest, by omega⟩
    · rw [toSynthetic_cons, if_neg hc] at h
      obtain ⟨sp', hm, hle⟩ := ih h
      exact ⟨sp', List.mem_cons_of_mem _ hm, hle⟩

theorem toSynthetic_toOriginal_roundtrip (spans : List MapSpan) (p : Nat)
    (hwf : SpanListWF spans) (hp : InMappedOriginal spans p) :
    ∃ q, toSynthetic spans p = some q ∧ toOriginal spans q = some p := by
  induction spans with
  | nil => obtain ⟨sp, hm, _⟩ := hp; exact absurd hm (List.not_mem_nil sp)
  | cons sp rest ih =>
    obtain ⟨hlen, hpw⟩ := hwf
    rw [List.pairwise_cons] at hpw
    by_cases h : sp.originalOffset ≤ p ∧ p < sp.originalOffset + sp.originalLength
    · refine ⟨sp.compiledOffset + (p - sp.originalOffset), ?_, ?_⟩
      · rw [toSynthetic_cons, if_pos h]
      · have hsp := hlen sp (List.mem_cons_self sp rest)
        have hin : sp.compiledOffset ≤ sp.compiledOffset + (p - sp.originalOffset) ∧
            sp.compiledOffset + (p - sp.originalOffset) <
              sp.compiledOffset + sp.compiledLength := by omega
        rw [toOriginal_cons, if_pos hin, Option.some.injEq]
        omega
    · have hp' : InMappedOriginal rest p := by
        obtain ⟨sp', hm, hr⟩ := hp
        rcases List.mem_cons.mp hm with rfl | hm'
        · exact absurd hr h
        · exact ⟨sp', hm', hr⟩
      have hwf' : SpanListWF rest := ⟨fun x hx => hlen x (List.mem_cons_of_mem _ hx), hpw.2⟩
      obtain ⟨q, h1, h2⟩ := ih hwf' hp'
      refine ⟨q, ?_, ?_⟩
      · rw [toSynthetic_cons, if_neg h]
        exact h1
      · obtain ⟨sp', hm', hle'⟩ := toSynthetic_some_lower rest p q h1
        have hbd := hpw.1 sp' hm'
        have hno : ¬(sp.compiledOffset ≤ q ∧ q < sp.compiledOffset + sp.compiledLength) := by
          omega
        rw [toOriginal_cons, if_neg hno]
        exact h2

/-- C2: over a well-formed offset map, a position inside a mapped span
survives the `toSynthetic` / `toOriginal` round trip unchanged, and both
directions return `none` exactly on positions inside unmapped regions. -/
theorem positionMapper_roundtrip_unmapped (spans : List MapSpan) (p q : Nat)
    (hwf : SpanListWF spans) :
    (InMappedOriginal spans p →
      ∃ s, toSynthetic spans p = some s ∧ toOriginal spans s = some p) ∧
    (toSynthetic spans p = none ↔ ¬ InMappedOriginal spans p) ∧
    (toOriginal spans q = none ↔ ¬ InMappedCompiled spans q) :=
  ⟨fun hp => toSynthetic_toOriginal_roundtrip spans p hwf hp,
   toSynthetic_eq_none_iff spans p,
   toOriginal_eq_none_iff spans q⟩

theorem positionMapper_roundtrip_unmapped_witness :
    SpanListWF demoSpans ∧
    ((InMappedOriginal demoSpans 11 →
        ∃ s, toSynthetic demoSpans 11 = some s ∧ toOriginal demoSpans s = some 11) ∧
      (toSynthetic demoSpans 11 = none ↔ ¬ InMappedOriginal demoSpans 11) ∧
      (toOriginal demoSpans 3 = none ↔ ¬ InMappedCompiled demoSpans 3)) :=
  ⟨by unfold SpanListWF; decide, positionMapper_roundtrip_unmapped demoSpans 11 3 (by unfold SpanListWF; decide)⟩

theorem secChain_mono {p q : Nat} {secs : List (SectionKind × Nat × Nat)}
    (hle : p ≤ q) (h : SecChain q secs) : SecChain p secs := by
  cases secs with
  | nil => trivial
  | cons e rest =>
    obtain ⟨k, s, n⟩ := e
    exact ⟨Nat.le_trans hle h.1, h.2⟩

theorem splitAux_chain (l : List Char) (pos : Nat) : SecChain pos (splitAux l pos) := by
  induction l, pos using splitAux.induct with
  | case1 pos => simp [splitAux, SecChain]
  | case2 c rest pos k openLen heq1 m heq2 ih =>
    simp only [splitAux, heq1, heq2]
    exact ⟨Nat.le_refl _, ih⟩
  | case3 c rest pos k openLen heq1 heq2 =>
    simp only [splitAux, heq1, heq2]
    exact ⟨Nat.le_refl _, trivial⟩
  | case4 c rest pos heq1 ih =>
    simp only [splitAux, heq1]
    exact secChain_mono (Nat.le_succ pos) ih

theorem secChain_lower {pos : Nat} {secs : List (SectionKind × Nat × Nat)}
    (h : SecChain pos secs) : ∀ x ∈ secs, pos ≤ x.2.1 := by
  induction secs generalizing pos with
  | nil => intro x hx; exact absurd hx (List.not_mem_nil x)
  | cons e rest ih =>
    obtain ⟨k, s, n⟩ := e
    intro x hx
    rcases List.mem_cons.mp hx with rfl | hm
    · exact h.1
    · exact Nat.le_trans (Nat.le_trans h.1 (Nat.le_add_right s n)) (ih h.2 x hm)

theorem secChain_pairwise {pos : Nat} {secs : List (SectionKind × Nat × Nat)}
    (h : SecChain pos secs) :
    secs.Pairwise (fun a b => a.2.1 + a.2.2 ≤ b.2.1) := by
  induction secs generalizing pos with
  | nil => exact List.Pairwise.nil
  | cons e rest ih =>
    obtain ⟨k, s, n⟩ := e
    exact List.pairwise_cons.mpr ⟨fun b hb => secChain_lower h.2 b hb, ih h.2⟩

theorem reconstruct_eq_drop (doc : List Char) (secs : List (SectionKind × Nat × Nat))
    (pos : Nat) (h : SecChain pos secs) :
    reconstruct doc secs pos = doc.drop pos := by
  induction secs generalizing pos with
  | nil => rfl
  | cons e rest ih =>
    obtain ⟨k, s, n⟩ := e
    obtain ⟨hps, hchain⟩ := h
    show (doc.drop pos).take (s - pos) ++ (doc.drop s).take n ++ reconstruct doc rest (s + n)
        = doc.drop pos
    rw [ih (s + n) hchain, List.append_assoc]
    have h1 : doc.drop (s + n) = (doc.drop s).drop n := by
      rw [List.drop_drop]
    have h2 : (doc.drop s).take n ++ (doc.drop s).drop n = doc.drop s :=
      List.take_append_drop n (doc.drop s)
    rw [h1, h2]
    have h3 : doc.drop s = (doc.drop pos).drop (s - pos) := by
      rw [List.drop_drop]
      congr 1
      omega
    rw [h3, List.take_append_drop]

/-- C3: the Section Splitter returns non-overlapping ranges, and
concatenating the untouched bytes between the sections with the section
ranges themselves reproduces the original document byte for byte. -/
theorem sectionSplitter_reconstruct (doc : List Char) :
    SecChain 0 (splitSections doc) ∧
    (splitSections doc).Pairwise (fun a b => a.2.1 + a.2.2 ≤ b.2.1) ∧
    reconstruct doc (splitSections doc) 0 = doc := by
  refine ⟨splitAux_chain doc 0, secChain_pairwise (splitAux_chain doc 0), ?_⟩
  rw [reconstruct_eq_drop doc (splitSections doc) 0 (splitAux_chain doc 0)]
  exact List.drop_zero doc

theorem IsParentPath.ne_nil {g : ParentEdges} {b : String} {path : List String}
    (h : IsParentPath g b path) : path ≠ [] := by
  cases h <;> simp

theorem path_extract {g : ParentEdges} {s : String} {path : List String}
    (h : IsParentPath g s path) :
    ∀ pre b suf, path = pre ++ b :: suf → suf = [] ∨ IsParentPath g b suf := by
  induction h with
  | single hb =>
    intro pre b suf heq
    rcases pre with _ | ⟨x, pre⟩
    · rw [List.nil_append] at heq
      injection heq with h1 h2
      exact Or.inl h2.symm
    · rw [List.cons_append] at heq
      injection heq with h1 h2
      simp at h2
  | cons hb hp ih =>
    intro pre b suf heq
    rcases pre with _ | ⟨x, pre⟩
    · rw [List.nil_append] at heq
      injection heq with h1 h2
      subst h1
      subst h2
      exact Or.inr hp
    · rw [List.cons_append] at heq
      injection heq with h1 h2
      exact ih pre b suf h2

theorem getLast?_cons_of_ne_nil {α : Type} {x : α} {l : List α} (h : l ≠ []) :
    (x :: l).getLast? = l.getLast? := by
  obtain ⟨t, ts, rfl⟩ := List.exists_cons_of_ne_nil h
  exact List.getLast?_cons_cons

theorem isParentPath_nodup {g : ParentEdges} {b : String} {path : List String}
    (hpath : IsParentPath g b path) :
    ∀ a, path.getLast? = some a → a ≠ b →
      ∃ path', IsParentPath g b path' ∧ path'.getLast? = some a ∧ (b :: path').Nodup := by
  induction hpath with
  | @single b x hb =>
    intro a hlast hne
    have hax : x = a := by simpa using hlast
    subst hax
    exact ⟨[x], IsParentPath.single hb, rfl, by simp [hne.symm]⟩
  | @cons b p tail hb hp ih =>
    intro a hlast hne
    have htne : tail ≠ [] := hp.ne_nil
    have hlast' : tail.getLast? = some a := by
      rwa [getLast?_cons_of_ne_nil htne] at hlast
    by_cases hap : a = p
    · subst hap
      exact ⟨[a], IsParentPath.single hb, rfl, by simp [hne.symm]⟩
    · obtain ⟨path'', hp'', hlast'', hnd''⟩ := ih a hlast' hap
      by_cases hbmem : b ∈ p :: path''
      · obtain ⟨pre, suf, heq⟩ := List.append_of_mem hbmem
        have hfull : IsParentPath g b (p :: path'') := IsParentPath.cons hb hp''
        have hlastfull : (p :: path'').getLast? = some a := by
          rw [getLast?_cons_of_ne_nil hp''.ne_nil]
          exact hlast''
        rcases path_extract hfull pre b suf heq with hnil | hsuf
        · subst hnil
          rw [heq, List.getLast?_concat] at hlastfull
          injection hlastfull with hba
          exact absurd hba.symm hne
        · have hsufne : suf ≠ [] := hsuf.ne_nil
          refine ⟨suf, hsuf, ?_, ?_⟩
          · rw [heq, List.getLast?_append_of_ne_nil pre (List.cons_ne_nil b suf),
              getLast?_cons_of_ne_nil hsufne] at hlastfull
            exact hlastfull
          · have hsub : (b :: suf).Sublist (p :: path'') := by
              rw [heq]
              exact List.sublist_append_right pre (b :: suf)
            exact hsub.nodup hnd''
      · refine ⟨p :: path'', IsParentPath.cons hb hp'', ?_, List.nodup_cons.mpr ⟨hbmem, hnd''⟩⟩
        rw [getLast?_cons_of_ne_nil hp''.ne_nil]
        exact hlast''

theorem path_keys {g : ParentEdges} {b : String} {path : List String}
    (hpath : IsParentPath g b path) :
    ∀ x ∈ b :: path.dropLast, (lookupParent g x).isSome := by
  induction hpath with
  | @single b a hb =>
    intro x hx
    simp only [List.dropLast_single, List.mem_cons, List.not_mem_nil, or_false] at hx
    subst hx
    simp [hb]
  | @cons b p tail hb hp ih =>
    intro x hx
    obtain ⟨t, ts, rfl⟩ := List.exists_cons_of_ne_nil hp.ne_nil
    rw [List.dropLast_cons₂] at hx
    rcases List.mem_cons.mp hx with rfl | hx'
    · simp [hb]
    · exact ih x hx'

theorem lookupParent_isSome_mem_keys {g : ParentEdges} {x : String}
    (h : (lookupParent g x).isSome) : x ∈ g.map Prod.fst := by
  unfold lookupParent at h
  cases hfind : List.find? (fun e => e.1 == x) g with
  | none => rw [hfind] at h; simp at h
  | some e =>
    have hmem := List.mem_of_find?_eq_some hfind
    have hpe := List.find?_some hfind
    have : e.1 = x := by simpa using hpe
    subst this
    exact List.mem_map.mpr ⟨e, hmem, rfl⟩

theorem nodup_path_length_le {g : ParentEdges} {b : String} {path : List String}
    (hpath : IsParentPath g b path) (hnd : (b :: path).Nodup) :
    path.length ≤ g.length := by
  have hsub : (b :: path.dropLast).Sublist (b :: path) :=
    List.Sublist.cons₂ b (List.dropLast_sublist path)
  have hnd' : (b :: path.dropLast).Nodup := hsub.nodup hnd
  have hss : (b :: path.dropLast) ⊆ g.map Prod.fst := by
    intro x hx
    exact lookupParent_isSome_mem_keys (path_keys hpath x hx)
  have hlen := (hnd'.subperm hss).length_le
  rw [List.length_map] at hlen
  have hne := hpath.ne_nil
  have : path.length ≠ 0 := fun h => hne (List.eq_nil_of_length_eq_zero h)
  simp only [List.length_cons, List.length_dropLast] at hlen
  omega

theorem isParentPath_mem_chain {g : ParentEdges} {b a : String} {path : List String}
    (hpath : IsParentPath g b path) :
    ∀ fuel, path.getLast? = some a → path.length ≤ fuel →
      a ∈ ancestorChain g fuel b := by
  induction hpath with
  | @single b x hb =>
    intro fuel hlast hfuel
    have hax : x = a := by simpa using hlast
    subst hax
    cases fuel with
    | zero => simp at hfuel
    | succ f =>
      simp only [ancestorChain, hb]
      exact List.mem_cons_self x _
  | @cons b p tail hb hp ih =>
    intro fuel hlast hfuel
    have htne : tail ≠ [] := hp.ne_nil
    have hlast' : tail.getLast? = some a := by
      rwa [getLast?_cons_of_ne_nil htne] at hlast
    cases fuel with
    | zero => simp at hfuel
    | succ f =>
      simp only [ancestorChain, hb]
      refine List.mem_cons_of_mem p (ih f hlast' ?_)
      simp only [List.length_cons] at hfuel
      omega

theorem ancestor_mem_chain {g : ParentEdges} {a b : String}
    (h : Ancestor g a b) (hne : a ≠ b) :
    a ∈ ancestorChain g g.length b := by
  obtain ⟨path, hpath, hlast⟩ := h
  obtain ⟨path', hpath', hlast', hnd'⟩ := isParentPath_nodup hpath a hlast hne
  exact isParentPath_mem_chain hpath' g.length hlast' (nodup_path_length_le hpath' hnd')

/-- C5: a `setParent` call whose new parent is a descendant of the node is
rejected with a cycle error and leaves the dependency graph unchanged. -/
theorem setParent_cycle_rejected (g : ParentEdges) (node parentRef : String)
    (h : Ancestor g node parentRef) :
    setParent g node parentRef = (g, some GraphError.cycleError) := by
  have hcyc : wouldCreateCycle g node parentRef = true := by
    unfold wouldCreateCycle
    by_cases he : node = parentRef
    · simp [he]
    · have hm := ancestor_mem_chain h he
      have hc : (ancestorChain g g.length parentRef).contains node :=
        List.contains_iff_exists_mem_beq.mpr ⟨node, hm, by simp⟩
      simp only [Bool.or_eq_true]
      exact Or.inr hc
  unfold setParent
  rw [hcyc]
  rfl

theorem setParent_cycle_rejected_witness :
    Ancestor [("b", "a")] "a" "b" ∧
    setParent [("b", "a")] "a" "b" = ([("b", "a")], some GraphError.cycleError) :=
  ⟨⟨["a"], IsParentPath.single rfl, rfl⟩,
   setParent_cycle_rejected [("b", "a")] "a" "b" ⟨["a"], IsParentPath.single rfl, rfl⟩⟩

theorem find?_map_key_preserving (s : NodeStore) (f : String × FileNode → String × FileNode)
    (hf : ∀ e, (f e).1 = e.1) (x : String) :
    List.find? (fun e => e.1 == x) (s.map f) =
      (List.find? (fun e => e.1 == x) s).map f := by
  have hp : ((fun e : String × FileNode => e.1 == x) ∘ f) = fun e => e.1 == x := by
    funext e
    simp [Function.comp, hf e]
  rw [List.find?_map, hp]

theorem lookupNode_invalidate (s : NodeStore) (target x : String) :
    lookupNode (invalidate s target) x = (lookupNode s x).map fun nd =>
      if x == target then
        { nd with version := nd.version + 1, composed := markStale nd.composed }
      else if isDescendant s x target then
        { nd with composed := markStale nd.composed }
      else nd := by
  unfold lookupNode invalidate
  rw [find?_map_key_preserving]
  · cases hfind : List.find? (fun e => e.1 == x) s with
    | none => rfl
    | some e =>
      have hx : e.1 = x := by simpa using List.find?_some hfind
      subst hx
      by_cases h1 : e.1 = target
      · simp [h1]
      · by_cases h2 : isDescendant s e.1 target <;> simp [h1, h2]
  · intro e
    by_cases h1 : e.1 = target
    · simp [h1]
    · by_cases h2 : isDescendant s e.1 target <;> simp [h1, h2]

/-- C6: invalidating a node bumps its version and marks the composed cache
of every descendant stale without recomputing it (text and recorded
versions untouched); the descendant's cache thereby fails both the stale
mark and the recorded-ancestor-version validity check. -/
theorem invalidate_marks_descendants_stale (s : NodeStore) (target d : String)
    (tn dn : FileNode) (c : ComposedDoc)
    (htn : lookupNode s target = some tn)
    (hdn : lookupNode s d = some dn)
    (hanc : Ancestor (storeEdges s) target d)
    (hne : d ≠ target)
    (hc : dn.composed = some c)
    (hrec : (target, tn.version) ∈ c.recorded) :
    lookupNode (invalidate s target) target =
      some { tn with version := tn.version + 1, composed := markStale tn.composed } ∧
    lookupNode (invalidate s target) d =
      some { dn with composed := some { c with stale := true } } ∧
    composedValid (invalidate s target) d = false ∧
    recordedMatches (invalidate s target) c.recorded = false := by
  have hdesc : isDescendant s d target = true := by
    unfold isDescendant
    have hm := ancestor_mem_chain hanc (fun h => hne h.symm)
    exact List.contains_iff_exists_mem_beq.mpr ⟨target, hm, by simp⟩
  have h1 : lookupNode (invalidate s target) target =
      some { tn with version := tn.version + 1, composed := markStale tn.composed } := by
    rw [lookupNode_invalidate, htn]
    simp
  have h2 : lookupNode (invalidate s target) d =
      some { dn with composed := some { c with stale := true } } := by
    rw [lookupNode_invalidate, hdn]
    have hbne : (d == target) = false := by simpa using hne
    simp only [Option.map_some', hbne, Bool.false_eq_true, if_false, hdesc, if_true, hc]
    rfl
  refine ⟨h1, h2, ?_, ?_⟩
  · unfold composedValid
    rw [h2]
    simp
  · unfold recordedMatches
    rw [List.all_eq_false]
    refine ⟨(target, tn.version), hrec, ?_⟩
    simp only [h1]
    simp

theorem invalidate_marks_descendants_stale_witness :
    lookupNode demoStore "A" = some demoNodeA ∧
    lookupNode demoStore "B" = some demoNodeB ∧
    Ancestor (storeEdges demoStore) "A" "B" ∧
    ("B" : String) ≠ "A" ∧
    demoNodeB.composed = some demoDocB ∧
    (("A", demoNodeA.version) : String × Nat) ∈ demoDocB.recorded ∧
    (lookupNode (invalidate demoStore "A") "A" =
        some { demoNodeA with version := demoNodeA.version + 1, composed := markStale demoNodeA.composed } ∧
      lookupNode (invalidate demoStore "A") "B" =
        some { demoNodeB with composed := some { demoDocB with stale := true } } ∧
      composedValid (invalidate demoStore "A") "B" = false ∧
      recordedMatches (invalidate demoStore "A") demoDocB.recorded = false) :=
  ⟨by decide, by decide, ⟨["A"], IsParentPath.single rfl, rfl⟩, by decide, rfl, by decide,
   invalidate_marks_descendants_stale demoStore "A" "B" demoNodeA demoNodeB demoDocB
     (by decide) (by decide) ⟨["A"], IsParentPath.single rfl, rfl⟩ (by decide) rfl
     (by decide)⟩

theorem schedRun_append_arrive (st : SchedState) (es : List SchedEvent) (e : SchedEvent) :
    schedRun st (es ++ [e]) = schedStep (schedRun st es) e := by
  unfold schedRun
  rw [List.foldl_append]
  rfl

theorem schedRun_delivered_le (es : List SchedEvent) (st : SchedState)
    (h : ∀ vr ∈ st.delivered, vr.1 ≤ st.version) :
    ∀ vr ∈ (schedRun st es).delivered, vr.1 ≤ (schedRun st es).version := by
  induction es generalizing st with
  | nil => exact h
  | cons e rest ih =>
    show ∀ vr ∈ (schedRun (schedStep st e) rest).delivered,
      vr.1 ≤ (schedRun (schedStep st e) rest).version
    refine ih (schedStep st e) ?_
    cases e with
    | invalidateEvt =>
      intro vr hvr
      simp only [schedStep] at hvr ⊢
      exact Nat.le_succ_of_le (h vr hvr)
    | arriveEvt v r =>
      by_cases hv : (v == st.version) = true
      · intro vr hvr
        simp only [schedStep, if_pos hv] at hvr ⊢
        rcases List.mem_cons.mp hvr with rfl | hm
        · exact Nat.le_of_eq (by simpa using hv)
        · exact h vr hm
      · intro vr hvr
        simp only [schedStep, if_neg hv] at hvr ⊢
        exact h vr hvr

/-- C8: a composition result arriving for a version other than the node's
current one is discarded unchanged with a fresh composition scheduled;
an invalidation bumps the version and schedules afresh; over any serialized
history a result is delivered exactly when its version is current at
arrival, so no consumer ever receives a result computed for a version older
than the node's current version at delivery time. -/
theorem staleResult_discarded (st : SchedState) (v : Nat) (r : String)
    (es : List SchedEvent) (hstale : v ≠ st.version) :
    schedStep st (SchedEvent.arriveEvt v r) = { st with pendingFresh := true } ∧
    (schedStep st SchedEvent.invalidateEvt).version = st.version + 1 ∧
    (schedStep st SchedEvent.invalidateEvt).pendingFresh = true ∧
    (schedRun st (es ++ [SchedEvent.arriveEvt v r])).delivered =
      (if v = (schedRun st es).version then (v, r) :: (schedRun st es).delivered
       else (schedRun st es).delivered) ∧
    ((∀ vr ∈ st.delivered, vr.1 ≤ st.version) →
      ∀ vr ∈ (schedRun st es).delivered, vr.1 ≤ (schedRun st es).version) := by
  refine ⟨?_, rfl, rfl, ?_, fun h => schedRun_delivered_le es st h⟩
  · have hb : (v == st.version) = false := by simpa using hstale
    simp [schedStep, hb]
  · rw [schedRun_append_arrive]
    by_cases hv : v = (schedRun st es).version
    · simp [schedStep, hv]
    · have hb : (v == (schedRun st es).version) = false := by simpa using hv
      simp [schedStep, hb, hv]

theorem staleResult_discarded_witness :
    (3 : Nat) ≠ (⟨5, false, [(5, "old")]⟩ : SchedState).version ∧
    (schedStep ⟨5, false, [(5, "old")]⟩ (SchedEvent.arriveEvt 3 "r") =
        { (⟨5, false, [(5, "old")]⟩ : SchedState) with pendingFresh := true } ∧
      (schedStep ⟨5, false, [(5, "old")]⟩ SchedEvent.invalidateEvt).version =
        (⟨5, false, [(5, "old")]⟩ : SchedState).version + 1 ∧
      (schedStep ⟨5, false, [(5, "old")]⟩ SchedEvent.invalidateEvt).pendingFresh = true ∧
      (schedRun ⟨5, false, [(5, "old")]⟩
          ([SchedEvent.invalidateEvt] ++ [SchedEvent.arriveEvt 3 "r"])).delivered =
        (if 3 = (schedRun ⟨5, false, [(5, "old")]⟩ [SchedEvent.invalidateEvt]).version then
          (3, "r") :: (schedRun ⟨5, false, [(5, "old")]⟩ [SchedEvent.invalidateEvt]).delivered
         else (schedRun ⟨5, false, [(5, "old")]⟩ [SchedEvent.invalidateEvt]).delivered) ∧
      ((∀ vr ∈ (⟨5, false, [(5, "old")]⟩ : SchedState).delivered,
          vr.1 ≤ (⟨5, false, [(5, "old")]⟩ : SchedState).version) →
        ∀ vr ∈ (schedRun ⟨5, false, [(5, "old")]⟩ [SchedEvent.invalidateEvt]).delivered,
          vr.1 ≤ (schedRun ⟨5, false, [(5, "old")]⟩ [SchedEvent.invalidateEvt]).version)) :=
  ⟨by decide,
   staleResult_discarded ⟨5, false, [(5, "old")]⟩ 3 "r" [SchedEvent.invalidateEvt] (by decide)⟩
